import Mathlib

/-!
Verification of the auditory-illusion synthesis engine
(Shepard tones, Risset rhythms, tempo/pitch ramp stimuli).

Shallow embedding conventions:
* numpy floating-point sample buffers and the per-sample arithmetic of the
  oscillator / event generators are modelled over `ℝ`;
* the mixing/normalization step and the sample-grid tempo-ramp loop only use
  rational arithmetic, so they are modelled computably over `ℚ`;
* `np.cumsum` becomes `cumsum`, python `x % 1.0` becomes `Int.fract`,
  `np.clip` becomes `clip`, python `2 ** x` on floats becomes `Real.rpow`;
* numpy producing `NaN` from `0.0 / 0.0` in an unguarded normalization is
  modelled by an `Option` result (`none` = the buffer is poisoned by NaN).
-/

open Real

noncomputable section

/-- Running cumulative sum, mirroring `np.cumsum`: entry `i` sums `f 0 .. f i`. -/
def cumsum (f : ℕ → ℝ) : ℕ → ℝ
  | 0 => f 0
  | n + 1 => cumsum f n + f (n + 1)

/-- Python / numpy floating modulo `x % m` (`m > 0`): `x - m * ⌊x / m⌋`. -/
def fmod (x m : ℝ) : ℝ := x - m * ⌊x / m⌋

/-- Elementwise `np.clip(x, lo, hi)`. -/
def clip (x lo hi : ℝ) : ℝ := min (max x lo) hi

/-- Gaussian envelope from `ShepardToneGenerator.gaussian_envelope`:
`np.exp(-((x - center) ** 2) / (2 * width ** 2))`. -/
def gaussianEnvelope (x center width : ℝ) : ℝ :=
  Real.exp (-((x - center) ^ 2) / (2 * width ^ 2))

/-- Shepard fade used by the event generators: `np.sin(np.pi * phase)`
(`risset_true_cyclical.generate_layer`, line `fade = np.sin(np.pi * phase)`). -/
def sineShepard (phase : ℝ) : ℝ := Real.sin (π * phase)

/-- Linear fade of `backup.RissetRhythmGenerator.generate_layer`:
ramp up over the first quarter, hold 1, ramp down over the last quarter. -/
def linearFade (progress : ℝ) : ℝ :=
  if progress < 1 / 4 then progress / (1 / 4)
  else if 3 / 4 < progress then (1 - progress) / (1 / 4)
  else 1

/-- Smoothed gate of the "Stronger Exponential Increase" script:
`np.clip(progress * 1.3, 0, 1) * np.clip((1 - progress) * 1.3, 0, 1)`. -/
def smoothedGate (progress : ℝ) : ℝ :=
  clip (progress * (13 / 10)) 0 1 * clip ((1 - progress) * (13 / 10)) 0 1

end

section EnvelopeLemmas

lemma gaussianEnvelope_nonneg (x c w : ℝ) : 0 ≤ gaussianEnvelope x c w :=
  (Real.exp_pos _).le

lemma gaussianEnvelope_le_one (x c w : ℝ) : gaussianEnvelope x c w ≤ 1 := by
  rw [gaussianEnvelope, Real.exp_le_one_iff, neg_div]
  exact neg_nonpos_of_nonneg (div_nonneg (sq_nonneg _) (by positivity))

lemma gaussianEnvelope_center (c w : ℝ) : gaussianEnvelope c c w = 1 := by
  simp [gaussianEnvelope]

lemma clip_zero_one_nonneg (x : ℝ) : 0 ≤ clip x 0 1 := by
  simp only [clip, le_min_iff]
  exact ⟨le_max_right _ _, by norm_num⟩

lemma clip_zero_one_le_one (x : ℝ) : clip x 0 1 ≤ 1 := min_le_right _ _

lemma sineShepard_nonneg {x : ℝ} (hx0 : 0 ≤ x) (hx1 : x ≤ 1) :
    0 ≤ sineShepard x :=
  Real.sin_nonneg_of_nonneg_of_le_pi (by positivity)
    (by nlinarith [Real.pi_pos])

lemma linearFade_nonneg {x : ℝ} (hx0 : 0 ≤ x) (hx1 : x ≤ 1) :
    0 ≤ linearFade x := by
  unfold linearFade
  split_ifs with h1 h2
  · positivity
  · have : (0:ℝ) ≤ 1 - x := by linarith
    positivity
  · norm_num

lemma linearFade_le_one {x : ℝ} (hx0 : 0 ≤ x) (hx1 : x ≤ 1) :
    linearFade x ≤ 1 := by
  unfold linearFade
  split_ifs with h1 h2
  · rw [div_le_one (by norm_num)]
    linarith
  · rw [div_le_one (by norm_num)]
    linarith
  · exact le_refl 1

lemma smoothedGate_nonneg (x : ℝ) : 0 ≤ smoothedGate x :=
  mul_nonneg (clip_zero_one_nonneg _) (clip_zero_one_nonneg _)

lemma smoothedGate_le_one (x : ℝ) : smoothedGate x ≤ 1 :=
  mul_le_one (clip_zero_one_le_one _) (clip_zero_one_nonneg _)
    (clip_zero_one_le_one _)

end EnvelopeLemmas

/-- C8 counterexample: the claim states the gaussian envelope is 0 at the domain
edges; with the parameters used by the Shepard generator (center 0.5, width 0.3)
its value at the edge `x = 0` is `exp (-25/18) ≈ 0.249`, which is not 0 --
a Gaussian never vanishes. -/
theorem gaussian_not_zero_at_edge :
    gaussianEnvelope 0 (1 / 2) (3 / 10) ≠ 0 :=
  ne_of_gt (Real.exp_pos _)

/-- C8 (amended): every envelope maps `[0,1]` into `[0,1]`; `sineShepard` is 0 at
both edges and 1 at the center; the gaussian attains its maximum 1 at its center
but is strictly positive (not 0) at the domain edges. -/
theorem envelope_bounds (x c w : ℝ) (hx0 : 0 ≤ x) (hx1 : x ≤ 1) :
    (0 ≤ gaussianEnvelope x c w ∧ gaussianEnvelope x c w ≤ 1) ∧
    (0 ≤ sineShepard x ∧ sineShepard x ≤ 1) ∧
    (0 ≤ linearFade x ∧ linearFade x ≤ 1) ∧
    (0 ≤ smoothedGate x ∧ smoothedGate x ≤ 1) ∧
    sineShepard 0 = 0 ∧ sineShepard 1 = 0 ∧ sineShepard (1 / 2) = 1 ∧
    gaussianEnvelope c c w = 1 ∧ 0 < gaussianEnvelope 0 (1 / 2) (3 / 10) := by
  refine ⟨⟨gaussianEnvelope_nonneg x c w, gaussianEnvelope_le_one x c w⟩,
    ⟨sineShepard_nonneg hx0 hx1, Real.sin_le_one _⟩,
    ⟨linearFade_nonneg hx0 hx1, linearFade_le_one hx0 hx1⟩,
    ⟨smoothedGate_nonneg x, smoothedGate_le_one x⟩,
    ?_, ?_, ?_, gaussianEnvelope_center c w, Real.exp_pos _⟩
  · simp [sineShepard]
  · simp [sineShepard]
  · rw [sineShepard, mul_one_div, Real.sin_pi_div_two]

/-- C8 witness: the bounds evaluated at the concrete in-range input `x = 1/2`. -/
theorem envelope_bounds_witness :
    (0:ℝ) ≤ 1 / 2 ∧ (1:ℝ) / 2 ≤ 1 ∧ sineShepard (1 / 2) = 1 :=
  ⟨by norm_num, by norm_num, (envelope_bounds (1/2) 0 1 (by norm_num) (by norm_num)).2.2.2.2.2.2.1⟩

/-- Parameters of `ShepardToneGenerator.generate_shepard_layer`: base frequency,
octave index of the layer, total octave count, rise rate, duration in seconds,
sample rate, sample count `num_samples`, and direction (`up = true` rises). -/
structure ShepardConfig where
  base : ℝ
  octaveIndex : ℕ
  numOctaves : ℕ
  rise : ℝ
  duration : ℝ
  sampleRate : ℝ
  numSamples : ℕ
  up : Bool

noncomputable section

/-- Sample instants `np.linspace(0, duration, num_samples, endpoint=False)`:
entry `i` is `i * (duration / num_samples)`. -/
def shepardTime (cfg : ShepardConfig) (i : ℕ) : ℝ :=
  (i : ℝ) * (cfg.duration / cfg.numSamples)

/-- Per-sample instantaneous frequency of one octave layer:
`octave_freq * 2 ** (± t / duration * rise_rate)` with
`octave_freq = base_frequency * 2 ** octave_index`. -/
def shepardFrequency (cfg : ShepardConfig) (i : ℕ) : ℝ :=
  if cfg.up then
    cfg.base * 2 ^ cfg.octaveIndex * (2:ℝ) ^ (shepardTime cfg i / cfg.duration * cfg.rise)
  else
    cfg.base * 2 ^ cfg.octaveIndex * (2:ℝ) ^ (-shepardTime cfg i / cfg.duration * cfg.rise)

/-- Integrated phase `2 * np.pi * np.cumsum(frequency) / self.sample_rate`. -/
def shepardPhase (cfg : ShepardConfig) (i : ℕ) : ℝ :=
  2 * π * cumsum (shepardFrequency cfg) i / cfg.sampleRate

/-- Octave-band envelope position
`(np.log2(frequency / base_frequency) % num_octaves) / num_octaves`. -/
def shepardFreqPosition (cfg : ShepardConfig) (i : ℕ) : ℝ :=
  fmod (Real.logb 2 (shepardFrequency cfg i / cfg.base)) cfg.numOctaves / cfg.numOctaves

/-- Gaussian band envelope `self.gaussian_envelope(freq_position, 0.5, 0.3)`. -/
def shepardEnvelope (cfg : ShepardConfig) (i : ℕ) : ℝ :=
  gaussianEnvelope (shepardFreqPosition cfg i) (1 / 2) (3 / 10)

/-- One sample of one Shepard layer: `np.sin(phase) * envelope`. -/
def shepardLayerSample (cfg : ShepardConfig) (i : ℕ) : ℝ :=
  Real.sin (shepardPhase cfg i) * shepardEnvelope cfg i

end

/-- Parameters of one pitch-ramp control stimulus from the
`generate pitch changes (control audio)` script: start/end frequency,
amplitude, duration, sample rate and sample count `int(sr * duration)`. -/
structure PitchRampConfig where
  f0 : ℝ
  f1 : ℝ
  amp : ℝ
  duration : ℝ
  sampleRate : ℝ
  numSamples : ℕ

noncomputable section

/-- Linearly interpolated frequency array `np.linspace(f0, f1, len(t))`
(with endpoint): entry `i` is `f0 + (f1 - f0) * i / (n - 1)`. -/
def pitchFreqs (p : PitchRampConfig) (i : ℕ) : ℝ :=
  p.f0 + (p.f1 - p.f0) * (i : ℝ) / ((p.numSamples : ℝ) - 1)

/-- Integrated phase of the pitch ramp: `2 * np.pi * np.cumsum(freqs) / sr`. -/
def pitchPhase (p : PitchRampConfig) (i : ℕ) : ℝ :=
  2 * π * cumsum (pitchFreqs p) i / p.sampleRate

/-- One sample of the pitch ramp: `amp * np.sin(phase)`. -/
def pitchSample (p : PitchRampConfig) (i : ℕ) : ℝ :=
  p.amp * Real.sin (pitchPhase p i)

end

lemma cumsum_eq_sum (f : ℕ → ℝ) (n : ℕ) :
    cumsum f n = ∑ k in Finset.range (n + 1), f k := by
  induction n with
  | zero => simp [cumsum]
  | succ n ih => rw [cumsum, ih, ← Finset.sum_range_succ]

/-- C1: in every oscillator-layer generation (exponential Shepard layer or
linear pitch ramp), the phase at sample `i` is `2π` times the cumulative sum of
the instantaneous-frequency samples `f[0..i]` divided by the sample rate --
discrete integration, so consecutive phases differ by `2π·f[i+1]/sr` -- and
sample `i` of the layer is `sin(phase[i])` scaled by its envelope value. -/
theorem oscillator_phase_is_integrated (cfg : ShepardConfig) (p : PitchRampConfig)
    (hD : 0 < cfg.duration) (hsr : 0 < cfg.sampleRate) (i : ℕ) :
    shepardPhase cfg i =
      2 * π * (∑ k in Finset.range (i + 1), shepardFrequency cfg k) / cfg.sampleRate ∧
    shepardPhase cfg (i + 1) - shepardPhase cfg i =
      2 * π * shepardFrequency cfg (i + 1) / cfg.sampleRate ∧
    shepardLayerSample cfg i = Real.sin (shepardPhase cfg i) * shepardEnvelope cfg i ∧
    pitchPhase p i =
      2 * π * (∑ k in Finset.range (i + 1), pitchFreqs p k) / p.sampleRate ∧
    pitchSample p i = p.amp * Real.sin (pitchPhase p i) := by
  refine ⟨by rw [shepardPhase, cumsum_eq_sum], ?_, rfl, by rw [pitchPhase, cumsum_eq_sum], rfl⟩
  rw [shepardPhase, shepardPhase, cumsum]
  ring

/-- C1 witness: the integration property at the concrete configuration of the
rising standard Shepard tone and the first pitch-ramp stimulus, sample 0. -/
theorem oscillator_phase_is_integrated_witness :
    (0:ℝ) < 30 ∧ (0:ℝ) < 44100 ∧
    shepardPhase ⟨55, 0, 8, 1, 30, 44100, 1323000, true⟩ 0 =
      2 * π * (∑ k in Finset.range 1,
        shepardFrequency ⟨55, 0, 8, 1, 30, 44100, 1323000, true⟩ k) / 44100 :=
  ⟨by norm_num, by norm_num,
    (oscillator_phase_is_integrated ⟨55, 0, 8, 1, 30, 44100, 1323000, true⟩
      ⟨200, 400, 4/5, 5, 44100, 220500⟩ (by norm_num) (by norm_num) 0).1⟩

/-- Fractional-octave layer offset of the exponential event generators:
`freq_offset = 2 ** (layer_index / num_layers)`. -/
noncomputable def freqOffset (li n : ℕ) : ℝ := (2:ℝ) ^ ((li : ℝ) / (n : ℝ))

/-- Instantaneous event frequency of the "Exponential Increase Version" script:
`base_freq * freq_offset * 2 ** (±progress)`. -/
noncomputable def expEventFreq (base : ℝ) (li n : ℕ) (accel : Bool) (p : ℝ) : ℝ :=
  if accel then base * freqOffset li n * (2:ℝ) ^ p
  else base * freqOffset li n * (2:ℝ) ^ (-p)

/-- Instantaneous event frequency of the "Stronger Exponential Increase" script:
`base_freq * freq_offset * 2 ** (±progress * EXP_RANGE)` with `EXP_RANGE = 3.0`. -/
noncomputable def strongerEventFreq (base : ℝ) (li n : ℕ) (accel : Bool) (p : ℝ) : ℝ :=
  if accel then base * freqOffset li n * (2:ℝ) ^ (p * 3)
  else base * freqOffset li n * (2:ℝ) ^ (-p * 3)

/-- C5 counterexample: the Shepard oscillator layer offsets layers by whole
octaves, not by the claimed fractional factor `2^(layerIndex/layerCount)`: at
layer index 1 of 8, base 55 Hz, sample 0 (progress 0), the code yields
`55 * 2^1 = 110` while the claimed formula yields `55 * 2^(1/8) * 2^(0·range) < 110`. -/
theorem shepard_offset_not_fractional :
    shepardFrequency ⟨55, 1, 8, 1, 30, 44100, 1323000, true⟩ 0 = 110 ∧
    55 * (2:ℝ) ^ ((1 : ℝ) / 8) * (2:ℝ) ^ ((0:ℝ) * 1) < 110 := by
  constructor
  · rw [shepardFrequency]
    simp only [if_pos rfl]
    rw [shepardTime]
    norm_num
  · rw [mul_one, Real.rpow_zero, mul_one]
    have h : (2:ℝ) ^ ((1 : ℝ) / 8) < (2:ℝ) ^ (1 : ℝ) := by
      rw [Real.rpow_lt_rpow_left_iff one_lt_two]
      norm_num
    rw [Real.rpow_one] at h
    linarith

/-- C5 (amended): under the exponential frequency law the event-layer
generators produce `baseFreq · 2^(layerIndex/layerCount) · 2^(±progress·range)`
with `range = 1` (plain version) or `range = 3` (stronger version), sign
following the direction; the Shepard oscillator layer instead offsets by whole
octaves: `baseFreq · 2^layerIndex · 2^(±progress·riseRate)`. -/
theorem exponential_law_frequency (base : ℝ) (li n : ℕ) (accel : Bool) (prog : ℝ)
    (cfg : ShepardConfig) (i : ℕ) (hD : cfg.duration ≠ 0) :
    expEventFreq base li n accel prog =
      base * (2:ℝ) ^ ((li : ℝ) / (n : ℝ)) *
        (2:ℝ) ^ (if accel then prog * 1 else -(prog * 1)) ∧
    strongerEventFreq base li n accel prog =
      base * (2:ℝ) ^ ((li : ℝ) / (n : ℝ)) *
        (2:ℝ) ^ (if accel then prog * 3 else -(prog * 3)) ∧
    shepardFrequency cfg i =
      cfg.base * 2 ^ cfg.octaveIndex *
        (2:ℝ) ^ (if cfg.up then (i : ℝ) / cfg.numSamples * cfg.rise
                  else -((i : ℝ) / cfg.numSamples * cfg.rise)) := by
  refine ⟨?_, ?_, ?_⟩
  · cases accel <;> simp [expEventFreq, freqOffset]
  · cases accel <;> simp [strongerEventFreq, freqOffset, neg_mul]
  · have harg : shepardTime cfg i / cfg.duration = (i : ℝ) / cfg.numSamples := by
      rw [shepardTime, mul_div_assoc, div_div,
        mul_comm (cfg.numSamples : ℝ) cfg.duration, ← div_div, div_self hD,
        mul_one_div]
    cases hup : cfg.up <;> simp only [shepardFrequency, hup, if_true, if_false,
      Bool.false_eq_true, neg_div, neg_mul, harg]

/-- C5 witness: the amended law at a concrete input (base 4/3 Hz, layer 1 of 3,
accelerating, progress 1/2, and the standard Shepard configuration). -/
theorem exponential_law_frequency_witness :
    (30:ℝ) ≠ 0 ∧
    expEventFreq (4/3) 1 3 true (1/2) =
      (4/3) * (2:ℝ) ^ ((1 : ℝ) / (3 : ℝ)) * (2:ℝ) ^ ((1/2 : ℝ) * 1) := by
  constructor
  · norm_num
  · have h := (exponential_law_frequency (4/3) 1 3 true (1/2)
      ⟨55, 0, 8, 1, 30, 44100, 1323000, true⟩ 0 (by norm_num)).1
    simpa using h

/-- Peak absolute sample `np.max(np.abs(xs))` of a buffer (0 for the empty one). -/
def peakAbs (xs : List ℚ) : ℚ := (xs.map (fun x => |x|)).foldr max 0

/-- Denominator of the Risset normalization `np.max(np.abs(mix) + 1e-9)`:
the maximum of the absolute samples each augmented by the ε guard. -/
def epsPeak (xs : List ℚ) : ℚ :=
  (xs.map (fun x => |x| + 1 / 1000000000)).foldr max 0

/-- Sample-wise sum of layer buffers into the zero buffer `np.zeros(n)`,
mirroring the `mix += generate_layer(...)` loop of `generate_risset`. -/
def sumLayers (n : ℕ) (ls : List (List ℚ)) : List ℚ :=
  ls.foldl (fun acc l => acc.zipWith (· + ·) l) (List.replicate n 0)

/-- Mix-and-normalize of `risset_true_cyclical.generate_risset`:
`mix /= np.max(np.abs(mix) + 1e-9)` (implicit target peak 1). -/
def rissetMix (n : ℕ) (ls : List (List ℚ)) : List ℚ :=
  (sumLayers n ls).map (fun x => x / epsPeak (sumLayers n ls))

/-- Summation step of `ShepardToneGenerator.generate`:
`output += layer / self.num_octaves` over all layers. -/
def shepardSum (k n : ℕ) (ls : List (List ℚ)) : List ℚ :=
  ls.foldl (fun acc l => acc.zipWith (· + ·) (l.map (fun x => x / (k : ℚ))))
    (List.replicate n 0)

/-- Normalization of `ShepardToneGenerator.generate`:
`output / np.max(np.abs(output)) * 0.8`. There is no ε guard, so an all-zero
mix makes numpy compute `0.0 / 0.0 = NaN`; the NaN outcome is `none`. -/
def shepardMix (k n : ℕ) (ls : List (List ℚ)) : Option (List ℚ) :=
  if peakAbs (shepardSum k n ls) = 0 then none
  else some ((shepardSum k n ls).map
    (fun x => x / peakAbs (shepardSum k n ls) * (4 / 5)))

/-- Normalization of the inline tempo-ramp beep script in `backup.py`:
`signal /= np.max(np.abs(signal))`, again without an ε guard (`none` = NaN). -/
def gridNormalize (xs : List ℚ) : Option (List ℚ) :=
  if peakAbs xs = 0 then none else some (xs.map (fun x => x / peakAbs xs))

lemma peakAbs_nil : peakAbs [] = 0 := rfl

lemma peakAbs_cons (a : ℚ) (t : List ℚ) : peakAbs (a :: t) = max |a| (peakAbs t) := rfl

lemma peakAbs_nonneg (xs : List ℚ) : 0 ≤ peakAbs xs := by
  induction xs with
  | nil => exact le_refl 0
  | cons a t ih => exact le_trans ih (le_max_right _ _)

lemma epsPeak_eq (xs : List ℚ) (h : xs ≠ []) :
    epsPeak xs = peakAbs xs + 1 / 1000000000 := by
  induction xs with
  | nil => exact absurd rfl h
  | cons a t ih =>
    rcases t with _ | ⟨b, t⟩
    · show max (|a| + 1/1000000000) 0 = max |a| 0 + 1/1000000000
      rw [max_eq_left (by positivity), max_eq_left (abs_nonneg a)]
    · show max (|a| + 1/1000000000) (epsPeak (b :: t)) =
        max |a| (peakAbs (b :: t)) + 1/1000000000
      rw [ih (by simp), max_add_add_right]

lemma peakAbs_map_mul (xs : List ℚ) (c : ℚ) (hc : 0 ≤ c) :
    peakAbs (xs.map (fun x => x * c)) = peakAbs xs * c := by
  induction xs with
  | nil => simp [peakAbs]
  | cons a t ih =>
    rw [List.map_cons, peakAbs_cons, peakAbs_cons, ih, abs_mul,
      abs_of_nonneg hc, max_mul_of_nonneg _ _ hc]

lemma peakAbs_map_div (xs : List ℚ) (c : ℚ) (hc : 0 ≤ c) :
    peakAbs (xs.map (fun x => x / c)) = peakAbs xs / c := by
  have hfun : (fun x : ℚ => x / c) = fun x : ℚ => x * c⁻¹ := by
    funext x
    rw [div_eq_mul_inv]
  rw [hfun, peakAbs_map_mul xs c⁻¹ (inv_nonneg.mpr hc), div_eq_mul_inv]

lemma zipWith_add_replicate_zero (n : ℕ) (l : List ℚ)
    (hl : ∀ x ∈ l, x = 0) (hlen : l.length = n) :
    List.zipWith (· + ·) (List.replicate n 0) l = List.replicate n 0 := by
  induction l generalizing n with
  | nil => subst hlen; rfl
  | cons a t ih =>
    subst hlen
    simp only [List.length_cons, List.replicate_succ, List.zipWith_cons_cons]
    rw [hl a (by simp), add_zero, ih t.length (fun x hx => hl x (by simp [hx])) rfl]

lemma sumLayers_allZero (n : ℕ) (ls : List (List ℚ))
    (hlen : ∀ l ∈ ls, l.length = n) (hz : ∀ l ∈ ls, ∀ x ∈ l, x = 0) :
    sumLayers n ls = List.replicate n 0 := by
  rw [sumLayers]
  induction ls with
  | nil => rfl
  | cons l t ih =>
    rw [List.foldl_cons,
      zipWith_add_replicate_zero n l (hz l (by simp)) (hlen l (by simp))]
    exact ih (fun x hx => hlen x (by simp [hx])) (fun x hx => hz x (by simp [hx]))

lemma shepardSum_allZero (k n : ℕ) (ls : List (List ℚ))
    (hlen : ∀ l ∈ ls, l.length = n) (hz : ∀ l ∈ ls, ∀ x ∈ l, x = 0) :
    shepardSum k n ls = List.replicate n 0 := by
  rw [shepardSum]
  induction ls with
  | nil => rfl
  | cons l t ih =>
    have hmap : ∀ x ∈ l.map (fun x => x / (k : ℚ)), x = 0 := by
      intro x hx
      rcases List.mem_map.mp hx with ⟨y, hy, rfl⟩
      rw [hz l (by simp) y hy, zero_div]
    rw [List.foldl_cons, zipWith_add_replicate_zero n _ hmap
      (by rw [List.length_map]; exact hlen l (by simp))]
    exact ih (fun x hx => hlen x (by simp [hx])) (fun x hx => hz x (by simp [hx]))

lemma peakAbs_replicate_zero (n : ℕ) : peakAbs (List.replicate n (0:ℚ)) = 0 := by
  induction n with
  | zero => rfl
  | succ m ih =>
    rw [List.replicate_succ, peakAbs_cons, ih, abs_zero, max_self]

/-- C3 counterexample: the claim says an all-zero mix input is absorbed by the
ε guard and yields an all-zero output; the Shepard-generator normalization
(the targetPeak = 0.8 normalizer pointed at by the spec scenario) has no ε
guard, so on two all-zero layers numpy computes `0.0/0.0` and the buffer is
NaN, modelled here as `none` rather than the all-zero buffer. -/
theorem allzero_shepard_mix_is_nan : shepardMix 2 2 [[0, 0], [0, 0]] = none := by
  rw [shepardMix, shepardSum_allZero 2 2 _ (by simp) (by simp),
    peakAbs_replicate_zero, if_pos rfl]

/-- C3 (amended): all-zero input layers are absorbed without error only by the
ε-guarded normalizers: the Risset mixer returns the all-zero buffer for every
layer count and buffer length, while the unguarded Shepard-generator and inline
tempo-script normalizations produce NaN (`none`) on all-zero input. -/
theorem allzero_mix_behaviour (n k : ℕ) (ls : List (List ℚ))
    (hlen : ∀ l ∈ ls, l.length = n) (hz : ∀ l ∈ ls, ∀ x ∈ l, x = 0) :
    rissetMix n ls = List.replicate n 0 ∧
    shepardMix k n ls = none ∧
    gridNormalize (List.replicate n 0) = none := by
  have hsum := sumLayers_allZero n ls hlen hz
  have hshep := shepardSum_allZero k n ls hlen hz
  refine ⟨?_, ?_, ?_⟩
  · rw [rissetMix, hsum, List.map_replicate, zero_div]
  · rw [shepardMix, hshep, peakAbs_replicate_zero, if_pos rfl]
  · rw [gridNormalize, peakAbs_replicate_zero, if_pos rfl]

/-- C3 witness: the amended behaviour at the concrete all-zero input of the
spec scenario (two layers of two zero samples). -/
theorem allzero_mix_behaviour_witness :
    rissetMix 2 [[0, 0], [0, 0]] = List.replicate 2 0 :=
  (allzero_mix_behaviour 2 2 [[0, 0], [0, 0]] (by simp) (by simp)).1

/-- C2 counterexample: two failures of the claim as stated. With the single
layer `[1e-6]` (a nonzero sample) the ε-guarded Risset normalization has output
peak `1000/1001 ≈ 0.999`, which misses the target peak 1 by about `1e-3`, far
beyond the floating tolerance `1e-6`. And the layers `[1]`, `[-1]` each contain
a nonzero sample yet cancel in the sum, so the unguarded Shepard normalization
divides `0.0` by `0.0` and produces NaN (`none`) instead of a peak-0.8 buffer. -/
theorem mixer_peak_counterexample :
    ((1:ℚ)/1000000 ≠ 0 ∧
      ¬ |peakAbs (rissetMix 1 [[1/1000000]]) - 1| ≤ 1/1000000) ∧
    shepardMix 1 1 [[1], [-1]] = none := by
  refine ⟨⟨by norm_num, ?_⟩, ?_⟩
  · have hs : sumLayers 1 [[1/1000000]] = [1/1000000] := by
      norm_num [sumLayers, List.replicate]
    have he : epsPeak [(1:ℚ)/1000000] = 1001/1000000000 := by
      show max (|(1:ℚ)/1000000| + 1/1000000000) 0 = 1001/1000000000
      rw [abs_of_nonneg (by norm_num : (0:ℚ) ≤ 1/1000000),
        max_eq_left (by norm_num : (0:ℚ) ≤ 1/1000000 + 1/1000000000)]
      norm_num
    have h : rissetMix 1 [[1/1000000]] = [1000/1001] := by
      rw [rissetMix, hs, he]
      norm_num
    rw [h]
    have hp : peakAbs [(1000:ℚ)/1001] = 1000/1001 := by
      show max |(1000:ℚ)/1001| 0 = 1000/1001
      rw [abs_of_nonneg (by norm_num : (0:ℚ) ≤ 1000/1001)]
      norm_num
    rw [hp, abs_of_nonpos (by norm_num : (1000:ℚ)/1001 - 1 ≤ 0)]
    norm_num
  · have h : shepardSum 1 1 [[1], [-1]] = [0] := by
      norm_num [shepardSum, List.replicate]
    rw [shepardMix, h]
    norm_num [peakAbs]

/-- C2 (amended): the mixer output is the sample-wise sum rescaled by
`targetPeak / (max(|sum|) + ε)` where the event family uses `ε = 1e-9`,
`targetPeak = 1` and the Shepard generator uses no ε with `targetPeak = 0.8`;
whenever the summed buffer has nonzero peak `M`, the ε-guarded output peak is
exactly `M / (M + ε)` -- strictly below the target (never clipped) and within
the `1e-6` tolerance of it whenever `M ≥ 1e-3` -- while the unguarded Shepard
output peak is exactly 0.8. -/
theorem mixer_normalization (n k : ℕ) (ls : List (List ℚ))
    (hne : sumLayers n ls ≠ [])
    (hM : 0 < peakAbs (sumLayers n ls))
    (hS : peakAbs (shepardSum k n ls) ≠ 0) :
    rissetMix n ls = (sumLayers n ls).map
      (fun x => x / (peakAbs (sumLayers n ls) + 1/1000000000)) ∧
    peakAbs (rissetMix n ls) =
      peakAbs (sumLayers n ls) / (peakAbs (sumLayers n ls) + 1/1000000000) ∧
    peakAbs (rissetMix n ls) < 1 ∧
    (1/1000 ≤ peakAbs (sumLayers n ls) →
      1 - peakAbs (rissetMix n ls) ≤ 1/1000000) ∧
    shepardMix k n ls = some ((shepardSum k n ls).map
      (fun x => x / peakAbs (shepardSum k n ls) * (4/5))) ∧
    peakAbs ((shepardSum k n ls).map
      (fun x => x / peakAbs (shepardSum k n ls) * (4/5))) = 4/5 := by
  have h1 : rissetMix n ls = (sumLayers n ls).map
      (fun x => x / (peakAbs (sumLayers n ls) + 1/1000000000)) := by
    rw [rissetMix, epsPeak_eq _ hne]
  have hMe : (0:ℚ) < peakAbs (sumLayers n ls) + 1/1000000000 := by linarith
  have h2 : peakAbs (rissetMix n ls) =
      peakAbs (sumLayers n ls) / (peakAbs (sumLayers n ls) + 1/1000000000) := by
    rw [h1, peakAbs_map_div _ _ hMe.le]
  refine ⟨h1, h2, ?_, ?_, ?_, ?_⟩
  · rw [h2, div_lt_one hMe]
    linarith
  · intro hk
    rw [h2]
    have key : 1 - peakAbs (sumLayers n ls) /
        (peakAbs (sumLayers n ls) + 1/1000000000) =
        (1/1000000000) / (peakAbs (sumLayers n ls) + 1/1000000000) := by
      field_simp
    rw [key, div_le_iff hMe]
    nlinarith
  · rw [shepardMix, if_neg hS]
  · have hfun : (fun x : ℚ => x / peakAbs (shepardSum k n ls) * (4/5)) =
        fun x : ℚ => x * ((peakAbs (shepardSum k n ls))⁻¹ * (4/5)) := by
      funext x
      ring
    rw [hfun, peakAbs_map_mul _ _
      (mul_nonneg (inv_nonneg.mpr (peakAbs_nonneg _)) (by norm_num)),
      ← mul_assoc, mul_inv_cancel₀ hS, one_mul]

/-- C2 witness: the amended normalization at the concrete input of one layer
`[1, 0]` of length 2 (summed peak 1). -/
theorem mixer_normalization_witness :
    sumLayers 2 [[1, 0]] ≠ [] ∧ 0 < peakAbs (sumLayers 2 [[1, 0]]) ∧
    peakAbs (shepardSum 1 2 [[1, 0]]) ≠ 0 ∧
    peakAbs (rissetMix 2 [[1, 0]]) =
      peakAbs (sumLayers 2 [[1, 0]]) /
        (peakAbs (sumLayers 2 [[1, 0]]) + 1/1000000000) := by
  have hs : sumLayers 2 [[1, 0]] = [1, 0] := by
    norm_num [sumLayers, List.replicate]
  have hss : shepardSum 1 2 [[1, 0]] = [1, 0] := by
    norm_num [shepardSum, List.replicate]
  have h1 : sumLayers 2 [[1, 0]] ≠ [] := by
    rw [hs]
    simp
  have h2 : (0:ℚ) < peakAbs (sumLayers 2 [[1, 0]]) := by
    rw [hs]
    norm_num [peakAbs]
  have h3 : peakAbs (shepardSum 1 2 [[1, 0]]) ≠ 0 := by
    rw [hss]
    norm_num [peakAbs]
  exact ⟨h1, h2, h3, (mixer_normalization 2 1 [[1, 0]] h1 h2 h3).2.1⟩

noncomputable section

/-- Event clock shared by the event-layer while loops: `t = 0.0` initially and
each iteration advances `t += interval` with `interval = 1.0 / freq(t)`;
entry `n` is the time of the n-th onset. -/
def onsetSeq (freqFn : ℝ → ℝ) : ℕ → ℝ
  | 0 => 0
  | n + 1 => onsetSeq freqFn n + 1 / freqFn (onsetSeq freqFn n)

/-- Cyclic log-phase of `risset_true_cyclical.generate_layer`:
`((direction * t / cycle_duration) + phase_offset) % 1.0`. -/
def cyclicPhase (d C off t : ℝ) : ℝ := Int.fract (d * t / C + off)

/-- Cyclic event frequency `freq = base_freq * (2 ** phase)`. -/
def cyclicFreq (b d C off t : ℝ) : ℝ := b * (2:ℝ) ^ cyclicPhase d C off t

/-- Shepard amplitude fade at a cyclic onset: `fade = np.sin(np.pi * phase)`. -/
def cyclicGain (d C off t : ℝ) : ℝ := Real.sin (π * cyclicPhase d C off t)

/-- Onset times of one cyclic layer (the `while t < total_duration` loop). -/
def cyclicOnset (b d C off : ℝ) : ℕ → ℝ := onsetSeq (cyclicFreq b d C off)

/-- Time-domain event frequency of the "Stronger Exponential Increase" layer
loop: `progress = t / duration` and `freq = base * offset * 2 ** (±progress * 3)`. -/
def strongerFreqAt (base : ℝ) (li n : ℕ) (accel : Bool) (D t : ℝ) : ℝ :=
  strongerEventFreq base li n accel (t / D)

/-- Onset times of one stronger-exponential layer. -/
def strongerOnset (base : ℝ) (li n : ℕ) (accel : Bool) (D : ℝ) : ℕ → ℝ :=
  onsetSeq (strongerFreqAt base li n accel D)

end

lemma onsetSeq_zero (f : ℝ → ℝ) : onsetSeq f 0 = 0 := rfl

lemma onsetSeq_succ (f : ℝ → ℝ) (n : ℕ) :
    onsetSeq f (n + 1) = onsetSeq f n + 1 / f (onsetSeq f n) := rfl

lemma onsetSeq_strictMono {f : ℝ → ℝ} (hf : ∀ t, 0 < f t) :
    StrictMono (onsetSeq f) := by
  apply strictMono_nat_of_lt_succ
  intro n
  rw [onsetSeq_succ]
  have h := hf (onsetSeq f n)
  have : 0 < 1 / f (onsetSeq f n) := by positivity
  linarith

lemma onsetSeq_nonneg {f : ℝ → ℝ} (hf : ∀ t, 0 < f t) (n : ℕ) :
    0 ≤ onsetSeq f n := by
  have h := (onsetSeq_strictMono hf).monotone (Nat.zero_le n)
  rwa [onsetSeq_zero] at h

lemma onsetSeq_reaches {f : ℝ → ℝ} (hf : ∀ t, 0 < f t) (B D : ℝ) (hB : 0 < B)
    (hub : ∀ t, 0 ≤ t → t < D → f t ≤ B) : ∃ n, D ≤ onsetSeq f n := by
  by_contra hcon
  push_neg at hcon
  have hstep : ∀ n, onsetSeq f n + 1 / B ≤ onsetSeq f (n + 1) := by
    intro n
    rw [onsetSeq_succ]
    have h1 : f (onsetSeq f n) ≤ B := hub _ (onsetSeq_nonneg hf n) (hcon n)
    have h2 : 0 < f (onsetSeq f n) := hf _
    have h3 : 1 / B ≤ 1 / f (onsetSeq f n) := one_div_le_one_div_of_le h2 h1
    linarith
  have hlin : ∀ n : ℕ, (n : ℝ) * (1 / B) ≤ onsetSeq f n := by
    intro n
    induction n with
    | zero => simp [onsetSeq_zero]
    | succ m ih =>
      have h := hstep m
      push_cast
      have : ((m : ℝ) + 1) * (1 / B) = (m : ℝ) * (1 / B) + 1 / B := by ring
      rw [this]
      linarith
  obtain ⟨n, hn⟩ := exists_nat_ge (B * D)
  have h1 : B * D * (1 / B) ≤ (n : ℝ) * (1 / B) :=
    mul_le_mul_of_nonneg_right hn (by positivity)
  have h2 : B * D * (1 / B) = D := by
    field_simp
  exact absurd (hcon n) (not_lt.mpr (le_trans (h2 ▸ h1) (hlin n)))

lemma cyclicPhase_nonneg (d C off t : ℝ) : 0 ≤ cyclicPhase d C off t :=
  Int.fract_nonneg _

lemma cyclicPhase_lt_one (d C off t : ℝ) : cyclicPhase d C off t < 1 :=
  Int.fract_lt_one _

lemma cyclicFreq_pos {b : ℝ} (hb : 0 < b) (d C off t : ℝ) :
    0 < cyclicFreq b d C off t :=
  mul_pos hb (Real.rpow_pos_of_pos two_pos _)

lemma cyclicFreq_le {b : ℝ} (hb : 0 < b) (d C off t : ℝ) :
    cyclicFreq b d C off t ≤ b * 2 := by
  rw [cyclicFreq]
  have h1 : (2:ℝ) ^ cyclicPhase d C off t ≤ (2:ℝ) ^ (1:ℝ) := by
    rw [Real.rpow_le_rpow_left_iff one_lt_two]
    exact (cyclicPhase_lt_one d C off t).le
  rw [Real.rpow_one] at h1
  exact mul_le_mul_of_nonneg_left h1 hb.le

lemma freqOffset_pos (li n : ℕ) : 0 < freqOffset li n :=
  Real.rpow_pos_of_pos two_pos _

lemma strongerFreqAt_pos {base : ℝ} (hbase : 0 < base) (li n : ℕ)
    (accel : Bool) (D t : ℝ) : 0 < strongerFreqAt base li n accel D t := by
  rw [strongerFreqAt, strongerEventFreq]
  cases accel <;> simp only [if_true, if_false, Bool.false_eq_true] <;>
    exact mul_pos (mul_pos hbase (freqOffset_pos li n))
      (Real.rpow_pos_of_pos two_pos _)

lemma strongerFreqAt_le {base D : ℝ} (hbase : 0 < base) (hD : 0 < D)
    (li n : ℕ) (accel : Bool) (t : ℝ) (ht0 : 0 ≤ t) (htD : t < D) :
    strongerFreqAt base li n accel D t ≤ base * freqOffset li n * 8 := by
  have hoff := freqOffset_pos li n
  have hprog0 : 0 ≤ t / D := by positivity
  have hprog1 : t / D < 1 := (div_lt_one hD).mpr htD
  rw [strongerFreqAt, strongerEventFreq]
  cases accel
  · simp only [Bool.false_eq_true, if_false]
    have h1 : (2:ℝ) ^ (-(t / D) * 3) ≤ (2:ℝ) ^ (3:ℝ) := by
      rw [Real.rpow_le_rpow_left_iff one_lt_two]
      nlinarith
    have h8 : (2:ℝ) ^ (3:ℝ) = 8 := by
      rw [show (3:ℝ) = ((3:ℕ):ℝ) by norm_num, Real.rpow_natCast]
      norm_num
    rw [h8] at h1
    exact mul_le_mul_of_nonneg_left h1 (by positivity)
  · simp only [if_true]
    have h1 : (2:ℝ) ^ (t / D * 3) ≤ (2:ℝ) ^ (3:ℝ) := by
      rw [Real.rpow_le_rpow_left_iff one_lt_two]
      nlinarith
    have h8 : (2:ℝ) ^ (3:ℝ) = 8 := by
      rw [show (3:ℝ) = ((3:ℕ):ℝ) by norm_num, Real.rpow_natCast]
      norm_num
    rw [h8] at h1
    exact mul_le_mul_of_nonneg_left h1 (by positivity)

/-- C4 counterexample: the claim asserts the produced onset sequence is always
non-uniform; with base frequency 1/6 Hz (positive and finite), cycle 6 s,
single accelerating layer (offset 0) and duration 30 s, the cyclic loop fires
exactly at 0, 6, 12, 18, 24 (then 30 ends the loop): every consecutive spacing
is exactly 6 s, a perfectly uniform grid. -/
theorem cyclic_onsets_uniform_counterexample :
    cyclicOnset (1/6) 1 6 0 0 = 0 ∧ cyclicOnset (1/6) 1 6 0 1 = 6 ∧
    cyclicOnset (1/6) 1 6 0 2 = 12 ∧ cyclicOnset (1/6) 1 6 0 3 = 18 ∧
    cyclicOnset (1/6) 1 6 0 4 = 24 ∧ cyclicOnset (1/6) 1 6 0 5 = 30 := by
  have hfr : ∀ x : ℝ, ∀ m : ℕ, ((1:ℝ) * x / 6 + 0 = (m : ℝ)) →
      cyclicFreq (1/6) 1 6 0 x = 1/6 := by
    intro x m hx
    rw [cyclicFreq, cyclicPhase, hx, Int.fract_natCast, Real.rpow_zero, mul_one]
  have hs : ∀ n : ℕ, cyclicOnset (1/6) 1 6 0 (n + 1) =
      cyclicOnset (1/6) 1 6 0 n +
        1 / cyclicFreq (1/6) 1 6 0 (cyclicOnset (1/6) 1 6 0 n) :=
    fun n => rfl
  have h0 : cyclicOnset (1/6) 1 6 0 0 = 0 := rfl
  have h1 : cyclicOnset (1/6) 1 6 0 1 = 6 := by
    rw [hs 0, h0, hfr 0 0 (by norm_num)]
    norm_num
  have h2 : cyclicOnset (1/6) 1 6 0 2 = 12 := by
    rw [hs 1, h1, hfr 6 1 (by norm_num)]
    norm_num
  have h3 : cyclicOnset (1/6) 1 6 0 3 = 18 := by
    rw [hs 2, h2, hfr 12 2 (by norm_num)]
    norm_num
  have h4 : cyclicOnset (1/6) 1 6 0 4 = 24 := by
    rw [hs 3, h3, hfr 18 3 (by norm_num)]
    norm_num
  have h5 : cyclicOnset (1/6) 1 6 0 5 = 30 := by
    rw [hs 4, h4, hfr 24 4 (by norm_num)]
    norm_num
  exact ⟨h0, h1, h2, h3, h4, h5⟩

/-- C4 (amended): for every positive finite base frequency and positive finite
duration, the event loops terminate (onsets reach the duration in finitely many
steps, since the instantaneous frequency is bounded above on `[0, D)`) and the
onset sequence is strictly increasing; spacing strictly shrinks step by step in
the accelerating stronger-exponential law (hence is non-uniform there), but
cyclic configurations whose interval divides the cycle fire on a uniform grid. -/
theorem event_loop_terminates (b C D off d base : ℝ) (li nl : ℕ) (accel : Bool)
    (hb : 0 < b) (hC : 0 < C) (hD : 0 < D) (hbase : 0 < base) :
    (∃ n, D ≤ cyclicOnset b d C off n) ∧
    StrictMono (cyclicOnset b d C off) ∧
    (∃ n, D ≤ strongerOnset base li nl accel D n) ∧
    StrictMono (strongerOnset base li nl accel D) ∧
    (∀ m n : ℕ, m < n →
      strongerOnset base li nl true D (n + 1) - strongerOnset base li nl true D n <
      strongerOnset base li nl true D (m + 1) - strongerOnset base li nl true D m) := by
  have hcycpos : ∀ t, 0 < cyclicFreq b d C off t := cyclicFreq_pos hb d C off
  have hstrpos : ∀ t, 0 < strongerFreqAt base li nl accel D t :=
    strongerFreqAt_pos hbase li nl accel D
  have hstrpos2 : ∀ t, 0 < strongerFreqAt base li nl true D t :=
    strongerFreqAt_pos hbase li nl true D
  refine ⟨?_, onsetSeq_strictMono hcycpos, ?_, onsetSeq_strictMono hstrpos, ?_⟩
  · exact onsetSeq_reaches hcycpos (b * 2) D (by linarith)
      (fun t ht0 htD => cyclicFreq_le hb d C off t)
  · exact onsetSeq_reaches hstrpos (base * freqOffset li nl * 8) D
      (by have := freqOffset_pos li nl; positivity)
      (fun t ht0 htD => strongerFreqAt_le hbase hD li nl accel t ht0 htD)
  · intro m n hmn
    have hmono := onsetSeq_strictMono hstrpos2
    have honset : strongerOnset base li nl true D m < strongerOnset base li nl true D n :=
      hmono hmn
    have hfmono : strongerFreqAt base li nl true D (strongerOnset base li nl true D m) <
        strongerFreqAt base li nl true D (strongerOnset base li nl true D n) := by
      rw [strongerFreqAt, strongerFreqAt, strongerEventFreq, strongerEventFreq]
      simp only [if_true]
      have harg : strongerOnset base li nl true D m / D * 3 <
          strongerOnset base li nl true D n / D * 3 := by
        have hdiv : strongerOnset base li nl true D m / D <
            strongerOnset base li nl true D n / D :=
          (div_lt_div_right hD).mpr honset
        linarith
      have := (Real.rpow_lt_rpow_left_iff one_lt_two).mpr harg
      have hco : 0 < base * freqOffset li nl :=
        mul_pos hbase (freqOffset_pos li nl)
      exact mul_lt_mul_of_pos_left this hco
    have heq1 : strongerOnset base li nl true D (n + 1) - strongerOnset base li nl true D n =
        1 / strongerFreqAt base li nl true D (strongerOnset base li nl true D n) := by
      rw [strongerOnset, onsetSeq_succ]
      ring
    have heq2 : strongerOnset base li nl true D (m + 1) - strongerOnset base li nl true D m =
        1 / strongerFreqAt base li nl true D (strongerOnset base li nl true D m) := by
      rw [strongerOnset, onsetSeq_succ]
      ring
    rw [heq1, heq2]
    exact one_div_lt_one_div_of_lt (hstrpos2 _) hfmono

/-- C4 witness: termination and strict monotonicity at the concrete
configuration base 4/3 Hz (80 BPM), cycle 6 s, duration 30 s, layer 0 of 3. -/
theorem event_loop_terminates_witness :
    (0:ℝ) < 4/3 ∧ (0:ℝ) < 6 ∧ (0:ℝ) < 30 ∧
    (∃ n, (30:ℝ) ≤ cyclicOnset (4/3) 1 6 0 n) :=
  ⟨by norm_num, by norm_num, by norm_num,
    (event_loop_terminates (4/3) 6 30 0 1 (4/3) 0 3 true
      (by norm_num) (by norm_num) (by norm_num) (by norm_num)).1⟩

/-- C7: the event generator performs no validation of the frequency value. With
base frequency -1 (finite but non-positive; base tempo -60 BPM) every computed
interval is negative, so the time cursor only decreases and `t < duration`
holds forever: generation loops forever instead of failing fast. (With base
frequency 0 the line `interval = 1.0 / freq` is an unguarded division by zero.) -/
theorem nonpositive_freq_not_failfast :
    (∀ n, cyclicOnset (-1) 1 6 0 n ≤ 0) ∧
    ¬ (∃ n, (30:ℝ) ≤ cyclicOnset (-1) 1 6 0 n) := by
  have hs : ∀ n : ℕ, cyclicOnset (-1) 1 6 0 (n + 1) =
      cyclicOnset (-1) 1 6 0 n +
        1 / cyclicFreq (-1) 1 6 0 (cyclicOnset (-1) 1 6 0 n) :=
    fun n => rfl
  have key : ∀ n, cyclicOnset (-1) 1 6 0 n ≤ 0 := by
    intro n
    induction n with
    | zero => exact le_refl 0
    | succ m ih =>
      rw [hs m]
      have hpow : (0:ℝ) < (2:ℝ) ^ cyclicPhase 1 6 0 (cyclicOnset (-1) 1 6 0 m) :=
        Real.rpow_pos_of_pos two_pos _
      have hfneg : cyclicFreq (-1) 1 6 0 (cyclicOnset (-1) 1 6 0 m) < 0 := by
        rw [cyclicFreq]
        nlinarith
      have hneg : 1 / cyclicFreq (-1) 1 6 0 (cyclicOnset (-1) 1 6 0 m) < 0 :=
        one_div_neg.mpr hfneg
      linarith
  refine ⟨key, ?_⟩
  rintro ⟨n, hn⟩
  linarith [key n]

lemma two_rpow_pow (p q : ℕ) (hq : (q:ℝ) ≠ 0) :
    ((2:ℝ) ^ ((p:ℝ) / (q:ℝ))) ^ q = 2 ^ p := by
  rw [← Real.rpow_natCast ((2:ℝ) ^ ((p:ℝ) / (q:ℝ))) q,
    ← Real.rpow_mul (by norm_num : (0:ℝ) ≤ 2), div_mul_cancel₀ _ hq,
    Real.rpow_natCast]

lemma two_rpow_div_lt (p q : ℕ) (c : ℝ) (hq : (q:ℝ) ≠ 0) (hc : 0 ≤ c)
    (h : (2:ℝ) ^ p < c ^ q) : (2:ℝ) ^ ((p:ℝ) / (q:ℝ)) < c := by
  apply lt_of_pow_lt_pow_left q hc
  rw [two_rpow_pow p q hq]
  exact h

lemma lt_two_rpow_div (p q : ℕ) (c : ℝ) (hq : (q:ℝ) ≠ 0)
    (h : c ^ q < (2:ℝ) ^ p) : c < (2:ℝ) ^ ((p:ℝ) / (q:ℝ)) := by
  apply lt_of_pow_lt_pow_left q (Real.rpow_pos_of_pos two_pos _).le
  rw [two_rpow_pow p q hq]
  exact h

/-- C6 (amended): the cyclic law is periodic with period `C` as a function of
time: phase, event frequency and onset gain at `t + C` equal those at `t` for
either direction. The onset sequence itself, however, advances by `1/freq`
without completing each cycle exactly and is not periodic (see the
counterexample theorem for the concrete `C = 6 s`, 30 s check). -/
theorem cyclic_law_periodic (b C off t d : ℝ) (hC : C ≠ 0)
    (hd : d = 1 ∨ d = -1) :
    cyclicPhase d C off (t + C) = cyclicPhase d C off t ∧
    cyclicFreq b d C off (t + C) = cyclicFreq b d C off t ∧
    cyclicGain d C off (t + C) = cyclicGain d C off t := by
  have hphase : cyclicPhase d C off (t + C) = cyclicPhase d C off t := by
    rw [cyclicPhase, cyclicPhase]
    rcases hd with rfl | rfl
    · rw [show (1:ℝ) * (t + C) / C + off = (1 * t / C + off) + ((1:ℤ):ℝ) by
        push_cast; field_simp; ring]
      exact Int.fract_add_int _ _
    · rw [show (-1:ℝ) * (t + C) / C + off = (-1 * t / C + off) + ((-1:ℤ):ℝ) by
        push_cast; field_simp; ring]
      exact Int.fract_add_int _ _
  exact ⟨hphase, by rw [cyclicFreq, cyclicFreq, hphase],
    by rw [cyclicGain, cyclicGain, hphase]⟩

/-- C6 witness: periodicity of the law at the concrete configuration
`C = 6`, direction 1, offset 0, base 3/2 (90 BPM), `t = 1`. -/
theorem cyclic_law_periodic_witness :
    (6:ℝ) ≠ 0 ∧ ((1:ℝ) = 1 ∨ (1:ℝ) = -1) ∧
    cyclicGain 1 6 0 (1 + 6) = cyclicGain 1 6 0 1 :=
  ⟨by norm_num, Or.inl rfl,
    (cyclic_law_periodic (3/2) 6 0 1 1 (by norm_num) (Or.inl rfl)).2.2⟩

set_option maxHeartbeats 2000000 in
/-- C6 counterexample: with base frequency 1/3 Hz, cycle `C = 6 s`, duration
30 s, single accelerating layer, the onsets in `[0,6)` are `0`, `3` and
`3 + 3/2^(1/2) ≈ 5.121`, but the next onset -- the first one of the window
`[6,12)` -- falls strictly inside `(6.7, 6.9)`, not at `6`: its gain exceeds
`1/4`, while the first gain of the first window is `sin 0 = 0`, so the gain
sequences of the two windows differ by far more than the `1e-6` tolerance and
the onset structure is not periodic with period `C`. -/
theorem cyclic_onset_structure_not_periodic :
    cyclicOnset (1/3) 1 6 0 0 = 0 ∧
    cyclicGain 1 6 0 (cyclicOnset (1/3) 1 6 0 0) = 0 ∧
    cyclicOnset (1/3) 1 6 0 2 < 6 ∧
    6 ≤ cyclicOnset (1/3) 1 6 0 3 ∧ cyclicOnset (1/3) 1 6 0 3 < 12 ∧
    1/4 < cyclicGain 1 6 0 (cyclicOnset (1/3) 1 6 0 3) ∧
    1/1000000 < |cyclicGain 1 6 0 (cyclicOnset (1/3) 1 6 0 3) -
      cyclicGain 1 6 0 (cyclicOnset (1/3) 1 6 0 0)| := by
  have hs : ∀ n : ℕ, cyclicOnset (1/3) 1 6 0 (n + 1) =
      cyclicOnset (1/3) 1 6 0 n +
        1 / cyclicFreq (1/3) 1 6 0 (cyclicOnset (1/3) 1 6 0 n) :=
    fun n => rfl
  have h0 : cyclicOnset (1/3) 1 6 0 0 = 0 := rfl
  have hg0 : cyclicGain 1 6 0 (0:ℝ) = 0 := by
    rw [cyclicGain, cyclicPhase, show (1:ℝ) * 0 / 6 + 0 = 0 by norm_num,
      Int.fract_zero, mul_zero, Real.sin_zero]
  have hf0 : cyclicFreq (1/3) 1 6 0 0 = 1/3 := by
    rw [cyclicFreq, cyclicPhase, show (1:ℝ) * 0 / 6 + 0 = ((0:ℕ):ℝ) by norm_num,
      Int.fract_natCast, Real.rpow_zero, mul_one]
  have h1 : cyclicOnset (1/3) 1 6 0 1 = 3 := by
    rw [hs 0, h0, hf0]
    norm_num
  have hph1 : cyclicPhase 1 6 0 (3:ℝ) = 1/2 := by
    rw [cyclicPhase, show (1:ℝ) * 3 / 6 + 0 = 1/2 by norm_num,
      Int.fract_eq_self.mpr ⟨by norm_num, by norm_num⟩]
  have hXpos : (0:ℝ) < (2:ℝ) ^ ((1:ℝ)/2) := Real.rpow_pos_of_pos two_pos _
  have hXlo : (1414:ℝ)/1000 < (2:ℝ) ^ ((1:ℝ)/2) := by
    have h := lt_two_rpow_div 1 2 ((1414:ℝ)/1000) (by norm_num) (by norm_num)
    rwa [show ((1:ℕ):ℝ) / ((2:ℕ):ℝ) = (1:ℝ)/2 by norm_num] at h
  have hXhi : (2:ℝ) ^ ((1:ℝ)/2) < (1415:ℝ)/1000 := by
    have h := two_rpow_div_lt 1 2 ((1415:ℝ)/1000) (by norm_num) (by norm_num)
      (by norm_num)
    rwa [show ((1:ℕ):ℝ) / ((2:ℕ):ℝ) = (1:ℝ)/2 by norm_num] at h
  have h2 : cyclicOnset (1/3) 1 6 0 2 = 3 + 3 / (2:ℝ) ^ ((1:ℝ)/2) := by
    rw [hs 1, h1, cyclicFreq, hph1,
      show (1:ℝ)/3 * (2:ℝ) ^ ((1:ℝ)/2) = (2:ℝ) ^ ((1:ℝ)/2) / 3 by ring,
      one_div_div]
  have hdivlo : (3:ℝ) / ((1415:ℝ)/1000) < 3 / (2:ℝ) ^ ((1:ℝ)/2) :=
    (div_lt_div_left (by norm_num) (by norm_num) hXpos).mpr hXhi
  have hdivhi : (3:ℝ) / (2:ℝ) ^ ((1:ℝ)/2) < 3 / ((1414:ℝ)/1000) :=
    (div_lt_div_left (by norm_num) hXpos (by norm_num)).mpr hXlo
  have hos2lo : (512:ℝ)/100 < cyclicOnset (1/3) 1 6 0 2 := by
    rw [h2]
    have : (3:ℝ) / ((1415:ℝ)/1000) = 3000/1415 := by norm_num
    linarith [hdivlo, show (212:ℝ)/100 < 3000/1415 by norm_num]
  have hos2hi : cyclicOnset (1/3) 1 6 0 2 < (5122:ℝ)/1000 := by
    rw [h2]
    have : (3:ℝ) / ((1414:ℝ)/1000) = 3000/1414 := by norm_num
    linarith [hdivhi, show (3000:ℝ)/1414 < 2122/1000 by norm_num]
  have hos2lt6 : cyclicOnset (1/3) 1 6 0 2 < 6 := by linarith
  have hph2 : cyclicPhase 1 6 0 (cyclicOnset (1/3) 1 6 0 2) =
      cyclicOnset (1/3) 1 6 0 2 / 6 := by
    rw [cyclicPhase,
      show (1:ℝ) * cyclicOnset (1/3) 1 6 0 2 / 6 + 0 =
        cyclicOnset (1/3) 1 6 0 2 / 6 by ring]
    exact Int.fract_eq_self.mpr ⟨by linarith, by linarith⟩
  have hx2lo : (4:ℝ)/5 < cyclicOnset (1/3) 1 6 0 2 / 6 := by linarith
  have hx2hi : cyclicOnset (1/3) 1 6 0 2 / 6 < (7:ℝ)/8 := by linarith
  have hYpos : (0:ℝ) < (2:ℝ) ^ (cyclicOnset (1/3) 1 6 0 2 / 6) :=
    Real.rpow_pos_of_pos two_pos _
  have hYlo : (87:ℝ)/50 < (2:ℝ) ^ (cyclicOnset (1/3) 1 6 0 2 / 6) := by
    have ha : (87:ℝ)/50 < (2:ℝ) ^ ((4:ℝ)/5) := by
      have h := lt_two_rpow_div 4 5 ((87:ℝ)/50) (by norm_num) (by norm_num)
      rwa [show ((4:ℕ):ℝ) / ((5:ℕ):ℝ) = (4:ℝ)/5 by norm_num] at h
    have hb : (2:ℝ) ^ ((4:ℝ)/5) < (2:ℝ) ^ (cyclicOnset (1/3) 1 6 0 2 / 6) :=
      (Real.rpow_lt_rpow_left_iff one_lt_two).mpr hx2lo
    linarith
  have hYhi : (2:ℝ) ^ (cyclicOnset (1/3) 1 6 0 2 / 6) < (367:ℝ)/200 := by
    have ha : (2:ℝ) ^ (cyclicOnset (1/3) 1 6 0 2 / 6) < (2:ℝ) ^ ((7:ℝ)/8) :=
      (Real.rpow_lt_rpow_left_iff one_lt_two).mpr hx2hi
    have hb : (2:ℝ) ^ ((7:ℝ)/8) < (367:ℝ)/200 := by
      have h := two_rpow_div_lt 7 8 ((367:ℝ)/200) (by norm_num) (by norm_num)
        (by norm_num)
      rwa [show ((7:ℕ):ℝ) / ((8:ℕ):ℝ) = (7:ℝ)/8 by norm_num] at h
    linarith
  have h3 : cyclicOnset (1/3) 1 6 0 3 = cyclicOnset (1/3) 1 6 0 2 +
      3 / (2:ℝ) ^ (cyclicOnset (1/3) 1 6 0 2 / 6) := by
    rw [hs 2, cyclicFreq, hph2,
      show (1:ℝ)/3 * (2:ℝ) ^ (cyclicOnset (1/3) 1 6 0 2 / 6) =
        (2:ℝ) ^ (cyclicOnset (1/3) 1 6 0 2 / 6) / 3 by ring,
      one_div_div]
  have hint3lo : (1634:ℝ)/1000 < 3 / (2:ℝ) ^ (cyclicOnset (1/3) 1 6 0 2 / 6) := by
    have h := (div_lt_div_left (show (0:ℝ) < 3 by norm_num)
      (show (0:ℝ) < (367:ℝ)/200 by norm_num) hYpos).mpr hYhi
    linarith [show (1634:ℝ)/1000 < 3 / ((367:ℝ)/200) by norm_num]
  have hint3hi : 3 / (2:ℝ) ^ (cyclicOnset (1/3) 1 6 0 2 / 6) < (1725:ℝ)/1000 := by
    have h := (div_lt_div_left (show (0:ℝ) < 3 by norm_num) hYpos
      (show (0:ℝ) < (87:ℝ)/50 by norm_num)).mpr hYlo
    linarith [show (3:ℝ) / ((87:ℝ)/50) < 1725/1000 by norm_num]
  have hos3lo : (6754:ℝ)/1000 < cyclicOnset (1/3) 1 6 0 3 := by
    rw [h3]
    linarith
  have hos3hi : cyclicOnset (1/3) 1 6 0 3 < (6847:ℝ)/1000 := by
    rw [h3]
    linarith
  have h6le : (6:ℝ) ≤ cyclicOnset (1/3) 1 6 0 3 := by linarith
  have hlt12 : cyclicOnset (1/3) 1 6 0 3 < 12 := by linarith
  have hph3 : cyclicPhase 1 6 0 (cyclicOnset (1/3) 1 6 0 3) =
      cyclicOnset (1/3) 1 6 0 3 / 6 - 1 := by
    rw [cyclicPhase,
      show (1:ℝ) * cyclicOnset (1/3) 1 6 0 3 / 6 + 0 =
        (cyclicOnset (1/3) 1 6 0 3 / 6 - 1) + ((1:ℤ):ℝ) by push_cast; ring,
      Int.fract_add_int]
    exact Int.fract_eq_self.mpr ⟨by linarith, by linarith⟩
  have hx3lo : (1256:ℝ)/10000 < cyclicOnset (1/3) 1 6 0 3 / 6 - 1 := by
    linarith
  have hx3hi : cyclicOnset (1/3) 1 6 0 3 / 6 - 1 < (1412:ℝ)/10000 := by
    linarith
  have hpilo : (3.14:ℝ) < π := Real.pi_gt_d2
  have hpihi : π < (3.15:ℝ) := Real.pi_lt_d2
  have hzlo : (394:ℝ)/1000 < π * (cyclicOnset (1/3) 1 6 0 3 / 6 - 1) := by
    nlinarith
  have hzhi : π * (cyclicOnset (1/3) 1 6 0 3 / 6 - 1) < (445:ℝ)/1000 := by
    nlinarith
  have hgain3 : cyclicGain 1 6 0 (cyclicOnset (1/3) 1 6 0 3) =
      Real.sin (π * (cyclicOnset (1/3) 1 6 0 3 / 6 - 1)) := by
    rw [cyclicGain, hph3]
  have hsin := Real.sin_gt_sub_cube
    (show 0 < π * (cyclicOnset (1/3) 1 6 0 3 / 6 - 1) by linarith)
    (show π * (cyclicOnset (1/3) 1 6 0 3 / 6 - 1) ≤ 1 by linarith)
  have hcube : (π * (cyclicOnset (1/3) 1 6 0 3 / 6 - 1)) ^ 3 <
      ((445:ℝ)/1000) ^ 3 :=
    pow_lt_pow_left hzhi (by linarith) (by norm_num)
  have hgain3pos : 1/4 < cyclicGain 1 6 0 (cyclicOnset (1/3) 1 6 0 3) := by
    rw [hgain3]
    nlinarith
  refine ⟨h0, by rw [h0]; exact hg0, hos2lt6, h6le, hlt12, hgain3pos, ?_⟩
  rw [h0, hg0, sub_zero, abs_of_pos (by linarith)]
  linarith

noncomputable section

/-- Onset sample index `start = int(t * sample_rate)` (for `t ≥ 0` python's
`int` truncation is the floor). -/
def sampleIndex (t sr : ℝ) : ℕ := ⌊t * sr⌋₊

/-- Buffer length `samples = int(total_duration * sample_rate)`. -/
def bufferLength (D sr : ℝ) : ℕ := ⌊D * sr⌋₊

/-- Stamping `layer[start:end] += hit[:end - start] * fade` with
`end = min(start + len(hit), samples)`, rendered index by index from position
`j`: a cell at absolute index `i` receives `hit[i - start] * fade` when
`start ≤ i < start + len(hit)` (and lies inside the buffer by construction);
every other cell is unchanged. Writes past the buffer end are dropped, which is
exactly the slice truncation. -/
def stampFrom (start : ℕ) (hit : List ℝ) (g : ℝ) : ℕ → List ℝ → List ℝ
  | _, [] => []
  | j, x :: rest =>
    (if start ≤ j ∧ j < start + hit.length then x + hit.getD (j - start) 0 * g
     else x) :: stampFrom start hit g (j + 1) rest

/-- Stamp one onset into the whole buffer. -/
def stamp (start : ℕ) (hit : List ℝ) (g : ℝ) (layer : List ℝ) : List ℝ :=
  stampFrom start hit g 0 layer

/-- Event-layer stamping loop: fold all onsets into the zero buffer
`np.zeros(int(total_duration * sample_rate))`. -/
def stampAll (n : ℕ) (onsets : List (ℕ × ℝ)) (hit : List ℝ) : List ℝ :=
  onsets.foldl (fun buf p => stamp p.1 hit p.2 buf) (List.replicate n 0)

end

lemma stampFrom_length (start : ℕ) (hit : List ℝ) (g : ℝ) :
    ∀ (layer : List ℝ) (j : ℕ), (stampFrom start hit g j layer).length = layer.length := by
  intro layer
  induction layer with
  | nil => intro j; rfl
  | cons x rest ih =>
    intro j
    rw [stampFrom, List.length_cons, List.length_cons, ih (j + 1)]

lemma stamp_length (start : ℕ) (hit : List ℝ) (g : ℝ) (layer : List ℝ) :
    (stamp start hit g layer).length = layer.length :=
  stampFrom_length start hit g layer 0

lemma stampFrom_getD (start : ℕ) (hit : List ℝ) (g : ℝ) :
    ∀ (layer : List ℝ) (j i : ℕ),
      (j + i < start ∨ start + hit.length ≤ j + i) →
      (stampFrom start hit g j layer).getD i 0 = layer.getD i 0 := by
  intro layer
  induction layer with
  | nil => intro j i h; rfl
  | cons x rest ih =>
    intro j i h
    rcases i with _ | i
    · rw [stampFrom, List.getD_cons_zero, List.getD_cons_zero, if_neg]
      omega
    · rw [stampFrom, List.getD_cons_succ, List.getD_cons_succ]
      exact ih (j + 1) i (by omega)

lemma stampAll_length (hit : List ℝ) (n : ℕ) (onsets : List (ℕ × ℝ)) :
    (stampAll n onsets hit).length = n := by
  rw [stampAll]
  have key : ∀ (os : List (ℕ × ℝ)) (buf : List ℝ),
      (os.foldl (fun b p => stamp p.1 hit p.2 b) buf).length = buf.length := by
    intro os
    induction os with
    | nil => intro buf; rfl
    | cons p rest ih =>
      intro buf
      rw [List.foldl_cons, ih, stamp_length]
  rw [key, List.length_replicate]

/-- C9: stamping writes only inside the buffer. The stamped buffer keeps its
length; samples before `start` and at or past `start + len(hit)` are unchanged
(a hit overrunning the end is truncated by the `min` slice bound); the whole
stamping loop returns exactly `int(duration * sampleRate)` samples; and for an
onset time `0 ≤ t < duration` the start index `int(t * sr)` never exceeds the
buffer length `int(duration * sr)`. -/
theorem stamping_in_bounds (s : ℕ) (hit : List ℝ) (g : ℝ) (layer : List ℝ)
    (onsets : List (ℕ × ℝ)) (n i : ℕ) (t D sr : ℝ)
    (ht0 : 0 ≤ t) (htD : t < D) (hsr : 0 ≤ sr) :
    (stamp s hit g layer).length = layer.length ∧
    ((i < s ∨ s + hit.length ≤ i) →
      (stamp s hit g layer).getD i 0 = layer.getD i 0) ∧
    (stampAll n onsets hit).length = n ∧
    sampleIndex t sr ≤ bufferLength D sr := by
  refine ⟨stamp_length s hit g layer, ?_, stampAll_length hit n onsets, ?_⟩
  · intro h
    exact stampFrom_getD s hit g layer 0 i (by omega)
  · exact Nat.floor_le_floor (mul_le_mul_of_nonneg_right htD.le hsr)

/-- C9 witness: the bounds at a concrete onset (start 2, two-sample hit, gain 1,
three-sample buffer, one onset, `t = 1/2`, duration 1, sample rate 4). -/
theorem stamping_in_bounds_witness :
    (0:ℝ) ≤ 1/2 ∧ (1/2:ℝ) < 1 ∧ (0:ℝ) ≤ 4 ∧
    (stampAll 3 [(0, 1)] [1, 1]).length = 3 :=
  ⟨by norm_num, by norm_num, by norm_num,
    (stamping_in_bounds 2 [1, 1] 1 [0, 0, 0] [(0, 1)] 3 0 (1/2) 1 4
      (by norm_num) (by norm_num) (by norm_num)).2.2.1⟩

/-- Linear BPM ramp `np.linspace(bpm_start, bpm_end, n)` (endpoint included):
entry `i` is `bpm_start + (bpm_end - bpm_start) * i / (n - 1)`. -/
def bpmAt (b0 b1 : ℚ) (n i : ℕ) : ℚ := b0 + (b1 - b0) * i / ((n : ℚ) - 1)

/-- Per-sample phase increment of `generate_ramp`: `bpm[i] / 60 / sample_rate`. -/
def rampInc (b0 b1 sr : ℚ) (n i : ℕ) : ℚ := bpmAt b0 b1 n i / 60 / sr

/-- The accumulator loop of `generate_ramp` (and of the inline tempo scripts):
`phase += bpm[i] / 60 / sr`; when `phase >= 1` the beep is stamped at sample `i`
and `phase -= 1`. `clockAux inc steps i ph` returns the stamped onset indices
of the next `steps` iterations starting at index `i` with phase `ph`. -/
def clockAux (inc : ℕ → ℚ) : ℕ → ℕ → ℚ → List ℕ
  | 0, _, _ => []
  | steps + 1, i, ph =>
    if 1 ≤ ph + inc i then i :: clockAux inc steps (i + 1) (ph + inc i - 1)
    else clockAux inc steps (i + 1) (ph + inc i)

/-- Beep onset sample indices of one tempo ramp with integer duration and
sample rate: `n = int(sample_rate * duration)` iterations from phase 0. -/
def rampOnsets (b0 b1 : ℚ) (dur sr : ℕ) : List ℕ :=
  clockAux (rampInc b0 b1 (sr : ℚ) (sr * dur)) (sr * dur) 0 0

/-- Modelled from the spec (the event-clock algorithm of the event-layer
generator, specialized as the spec directs for the tempo-ramp control stimulus:
`layerCount = 1`, constant envelope, linear BPM law): the clock starts at
`t = 0`, stamps an onset at `t`, and advances `t` by `1/freq(t)` with
`freq(t) = bpm(t)/60` and `bpm` linearly interpolating start and end BPM. -/
noncomputable def specRampClock (b0 b1 D : ℝ) : ℕ → ℝ :=
  onsetSeq (fun t => (b0 + (b1 - b0) * (t / D)) / 60)

lemma clockAux_mem_iff (inc : ℕ → ℚ) :
    ∀ (steps i : ℕ) (ph : ℚ), 0 ≤ ph → ph < 1 →
      (∀ k, i ≤ k → k < i + steps → 0 ≤ inc k ∧ inc k < 1) →
      ∀ j, j ∈ clockAux inc steps i ph ↔
        (i ≤ j ∧ j < i + steps ∧
          ⌊ph + ∑ k in Finset.Ico i (j + 1), inc k⌋ =
          ⌊ph + ∑ k in Finset.Ico i j, inc k⌋ + 1) := by
  intro steps
  induction steps with
  | zero =>
    intro i ph hph0 hph1 hinc j
    rw [clockAux]
    simp only [List.not_mem_nil, false_iff]
    omega
  | succ m ih =>
    intro i ph hph0 hph1 hinc j
    have hinci := hinc i (le_refl i) (by omega)
    have hadd1 : ∀ x : ℚ, ⌊x + 1⌋ = ⌊x⌋ + 1 := by
      intro x
      have h := Int.floor_add_int x 1
      rwa [show ((1:ℤ):ℚ) = 1 by norm_num] at h
    have hphfloor : ⌊ph⌋ = 0 :=
      Int.floor_eq_zero_iff.mpr ⟨hph0, hph1⟩
    have hSi : ∑ k in Finset.Ico i (i + 1), inc k = inc i := by
      rw [Finset.sum_Ico_succ_top (le_refl i), Finset.Ico_self,
        Finset.sum_empty, zero_add]
    rw [clockAux]
    by_cases hcase : 1 ≤ ph + inc i
    · rw [if_pos hcase, List.mem_cons]
      have hv0 : 0 ≤ ph + inc i - 1 := by linarith
      have hv1 : ph + inc i - 1 < 1 := by linarith
      have hincs : ∀ k, i + 1 ≤ k → k < i + 1 + m → 0 ≤ inc k ∧ inc k < 1 :=
        fun k hk1 hk2 => hinc k (by omega) (by omega)
      have hsum : ∀ l : ℕ, i < l →
          ph + ∑ k in Finset.Ico i l, inc k =
          (ph + inc i - 1) + ∑ k in Finset.Ico (i + 1) l, inc k + 1 := by
        intro l hl
        rw [Finset.sum_eq_sum_Ico_succ_bot hl]
        ring
      have hcondiff : ∀ l : ℕ, i + 1 ≤ l →
          ((⌊(ph + inc i - 1) + ∑ k in Finset.Ico (i + 1) (l + 1), inc k⌋ =
            ⌊(ph + inc i - 1) + ∑ k in Finset.Ico (i + 1) l, inc k⌋ + 1) ↔
           (⌊ph + ∑ k in Finset.Ico i (l + 1), inc k⌋ =
            ⌊ph + ∑ k in Finset.Ico i l, inc k⌋ + 1)) := by
        intro l hl
        rw [hsum (l + 1) (by omega), hsum l (by omega), hadd1, hadd1]
        omega
      have hcondI :
          ⌊ph + ∑ k in Finset.Ico i (i + 1), inc k⌋ =
          ⌊ph + ∑ k in Finset.Ico i i, inc k⌋ + 1 := by
        rw [hSi, Finset.Ico_self, Finset.sum_empty, add_zero, hphfloor,
          Int.floor_eq_iff]
        constructor
        · push_cast
          linarith
        · push_cast
          linarith
      rw [ih (i + 1) (ph + inc i - 1) hv0 hv1 hincs j]
      constructor
      · rintro (rfl | ⟨hj1, hj2, hcond⟩)
        · exact ⟨le_refl j, by omega, hcondI⟩
        · exact ⟨by omega, by omega, (hcondiff j hj1).mp hcond⟩
      · rintro ⟨hj1, hj2, hcond⟩
        by_cases hji : j = i
        · exact Or.inl hji
        · exact Or.inr ⟨by omega, by omega, (hcondiff j (by omega)).mpr hcond⟩
    · rw [if_neg hcase]
      push_neg at hcase
      have hv0 : 0 ≤ ph + inc i := by linarith
      have hincs : ∀ k, i + 1 ≤ k → k < i + 1 + m → 0 ≤ inc k ∧ inc k < 1 :=
        fun k hk1 hk2 => hinc k (by omega) (by omega)
      have hsum : ∀ l : ℕ, i < l →
          ph + ∑ k in Finset.Ico i l, inc k =
          (ph + inc i) + ∑ k in Finset.Ico (i + 1) l, inc k := by
        intro l hl
        rw [Finset.sum_eq_sum_Ico_succ_bot hl]
        ring
      rw [ih (i + 1) (ph + inc i) hv0 hcase hincs j]
      constructor
      · rintro ⟨hj1, hj2, hcond⟩
        refine ⟨by omega, by omega, ?_⟩
        rw [hsum (j + 1) (by omega), hsum j (by omega)]
        exact hcond
      · rintro ⟨hj1, hj2, hcond⟩
        by_cases hji : j = i
        · subst hji
          rw [hSi, Finset.Ico_self, Finset.sum_empty, add_zero, hphfloor] at hcond
          have hvf : ⌊ph + inc j⌋ = 0 :=
            Int.floor_eq_zero_iff.mpr ⟨hv0, hcase⟩
          omega
        · refine ⟨by omega, by omega, ?_⟩
          rw [hsum (j + 1) (by omega), hsum j (by omega)] at hcond
          exact hcond

lemma rampOnsets_mem_iff (b0 b1 : ℚ) (dur sr : ℕ)
    (hinc : ∀ k, k < sr * dur → 0 ≤ rampInc b0 b1 (sr:ℚ) (sr * dur) k ∧
      rampInc b0 b1 (sr:ℚ) (sr * dur) k < 1) :
    ∀ j, j ∈ rampOnsets b0 b1 dur sr ↔
      (j < sr * dur ∧
        ⌊∑ k in Finset.range (j + 1), rampInc b0 b1 (sr:ℚ) (sr * dur) k⌋ =
        ⌊∑ k in Finset.range j, rampInc b0 b1 (sr:ℚ) (sr * dur) k⌋ + 1) := by
  intro j
  have h := clockAux_mem_iff (rampInc b0 b1 (sr:ℚ) (sr * dur)) (sr * dur) 0 0
    (le_refl 0) one_pos (fun k hk1 hk2 => hinc k (by omega)) j
  rw [rampOnsets, h, Finset.range_eq_Ico]
  simp only [zero_add]
  constructor
  · rintro ⟨h1, h2, h3⟩
    exact ⟨h2, h3⟩
  · rintro ⟨h2, h3⟩
    exact ⟨Nat.zero_le j, h2, h3⟩

/-- C10 (amended): the tempo-ramp beep generator is the event-layer algorithm
specialized to one layer, constant envelope, linear BPM law and a fixed beep,
but realized as a per-sample integral-crossing clock: sample `j` carries a beep
exactly when the running sum of the per-sample frequency increments
`bpm[k]/60/sr` crosses the next integer at `j`. Its first beep therefore comes
one full period after the start, whereas the spec's Euler event clock stamps
its first onset at `t = 0`: the onset sequences do not coincide (see the
counterexample theorem for the one-sample mismatch bound). -/
theorem ramp_is_integral_crossing_clock (b0 b1 : ℚ) (dur sr : ℕ)
    (hinc : ∀ k, k < sr * dur → 0 ≤ rampInc b0 b1 (sr:ℚ) (sr * dur) k ∧
      rampInc b0 b1 (sr:ℚ) (sr * dur) k < 1) (rb0 rb1 D : ℝ) :
    (∀ j, j ∈ rampOnsets b0 b1 dur sr ↔
      (j < sr * dur ∧
        ⌊∑ k in Finset.range (j + 1), rampInc b0 b1 (sr:ℚ) (sr * dur) k⌋ =
        ⌊∑ k in Finset.range j, rampInc b0 b1 (sr:ℚ) (sr * dur) k⌋ + 1)) ∧
    specRampClock rb0 rb1 D 0 = 0 :=
  ⟨rampOnsets_mem_iff b0 b1 dur sr hinc, rfl⟩

/-- C10 witness: the integral-crossing characterization at the concrete
constant ramp 60→60 BPM over 1 s at 10 Hz (increment 1/10 per sample). -/
theorem ramp_is_integral_crossing_clock_witness :
    (∀ k, k < 10 * 1 → 0 ≤ rampInc 60 60 (10:ℚ) (10 * 1) k ∧
      rampInc 60 60 (10:ℚ) (10 * 1) k < 1) ∧
    specRampClock 60 120 12 0 = 0 := by
  have hinc : ∀ k, k < 10 * 1 → 0 ≤ rampInc 60 60 (10:ℚ) (10 * 1) k ∧
      rampInc 60 60 (10:ℚ) (10 * 1) k < 1 := by
    intro k hk
    rw [rampInc, bpmAt]
    norm_num
  exact ⟨hinc, (ramp_is_integral_crossing_clock 60 60 1 10 hinc 60 120 12).2⟩

/-- C10 counterexample: for the ramp 60→120 BPM over 12 s at 44100 Hz the
spec's event clock stamps its first onset at `t = 0` (sample 0), while the
code's accumulator starts at phase 0 and stamps only once the frequency
integral reaches 1, which cannot happen before sample 22050: no code onset lies
within 1000 samples of the start, so the sequences do not match within one
sample. -/
theorem ramp_first_beep_delayed :
    specRampClock 60 120 12 0 = 0 ∧
    (rampOnsets 60 120 12 44100).filter (fun j => j < 1000) = [] := by
  have hbound : ∀ k, k < 44100 * 12 →
      0 ≤ rampInc 60 120 ((44100:ℕ):ℚ) (44100 * 12) k ∧
      rampInc 60 120 ((44100:ℕ):ℚ) (44100 * 12) k ≤ 1/22050 := by
    intro k hk
    have hk9 : (k : ℚ) ≤ 529199 := by
      have h : k ≤ 529199 := by omega
      exact_mod_cast h
    have hk0 : (0:ℚ) ≤ (k : ℚ) := Nat.cast_nonneg k
    rw [rampInc, bpmAt]
    push_cast
    have hfrac0 : (0:ℚ) ≤ (120 - 60) * (k:ℚ) / (529200 - 1) := by positivity
    have hfrac1 : (120 - 60 : ℚ) * (k:ℚ) / (529200 - 1) ≤ 60 := by
      rw [div_le_iff (by norm_num : (0:ℚ) < 529200 - 1)]
      nlinarith
    constructor
    · positivity
    · rw [div_le_iff (by norm_num : (0:ℚ) < 44100),
        div_le_iff (by norm_num : (0:ℚ) < 60)]
      nlinarith
  have hmem := rampOnsets_mem_iff 60 120 12 44100
    (fun k hk => ⟨(hbound k hk).1, lt_of_le_of_lt (hbound k hk).2 (by norm_num)⟩)
  refine ⟨rfl, ?_⟩
  rw [List.filter_eq_nil]
  intro j hj
  simp only [decide_eq_true_eq, not_lt]
  obtain ⟨hjn, hfl⟩ := (hmem j).mp hj
  have hS0 : (0:ℚ) ≤ ∑ k in Finset.range j,
      rampInc 60 120 ((44100:ℕ):ℚ) (44100 * 12) k :=
    Finset.sum_nonneg (fun k hk => (hbound k (by
      have h := Finset.mem_range.mp hk
      omega)).1)
  have hfl0 : 0 ≤ ⌊∑ k in Finset.range j,
      rampInc 60 120 ((44100:ℕ):ℚ) (44100 * 12) k⌋ := Int.floor_nonneg.mpr hS0
  have hfl1 : 1 ≤ ⌊∑ k in Finset.range (j + 1),
      rampInc 60 120 ((44100:ℕ):ℚ) (44100 * 12) k⌋ := by omega
  have hS1 : (1:ℚ) ≤ ∑ k in Finset.range (j + 1),
      rampInc 60 120 ((44100:ℕ):ℚ) (44100 * 12) k := by
    have h1 : ((1:ℤ):ℚ) ≤ (⌊∑ k in Finset.range (j + 1),
        rampInc 60 120 ((44100:ℕ):ℚ) (44100 * 12) k⌋ : ℚ) := by
      exact_mod_cast hfl1
    exact le_trans (by exact_mod_cast h1) (Int.floor_le _)
  have hSub : ∑ k in Finset.range (j + 1),
      rampInc 60 120 ((44100:ℕ):ℚ) (44100 * 12) k ≤
      ((j + 1 : ℕ) : ℚ) * (1/22050) := by
    have h := Finset.sum_le_card_nsmul (Finset.range (j + 1))
      (rampInc 60 120 ((44100:ℕ):ℚ) (44100 * 12)) (1/22050)
      (fun k hk => (hbound k (by
        have h2 := Finset.mem_range.mp hk
        omega)).2)
    rwa [Finset.card_range, nsmul_eq_mul] at h
  have hjq : (22050:ℚ) ≤ ((j + 1 : ℕ) : ℚ) := by
    have h2 : (1:ℚ) ≤ ((j + 1 : ℕ) : ℚ) * (1/22050) := le_trans hS1 hSub
    nlinarith
  have h3 : (22050 : ℕ) ≤ j + 1 := by exact_mod_cast hjq
  omega
